import Mathlib

/-!
Verification of the table-extraction-and-merge core of the PDF-to-Excel
converter (`pdf_converter.py`).

The shallow embedding models:
  * a pandas DataFrame as a header (list of column names) together with a
    list of rows, each row a list of cells; a cell is `Option String`,
    `none` standing for a missing value (`None` / `pd.NA` / `NaN`);
  * `make_unique_columns` (lines 28-41 of the source), including the exact
    pandas iteration order (`cols[cols.duplicated()].unique()`) and the
    in-place mutation of the column series;
  * `procesar_pdf` (lines 43-95): the page-pair loop, the per-page column
    clean-up, the positional horizontal concatenation of a page pair
    (`pd.concat(axis=1)` on default range indexes), the vertical
    concatenation of all pair blocks (`pd.concat(ignore_index=True)`),
    `replace('', pd.NA)`, `dropna(how='all')`, and the surrounding
    `try/except` that turns any internal error into a `False` return.

Python's `f"{dup}_{i}"` renders `i` in decimal; the embedding uses its own
fuel-based decimal printer `decStr` so that everything reduces in the kernel.
-/

/-- A cell of an extracted table / DataFrame: `none` is a missing value
(`None` from pdfplumber, or `pd.NA` after replacement). -/
abbrev Cell := Option String

/-- A pandas DataFrame with a default range index: the column names (which
need not be distinct) and the rows. -/
structure DF where
  cols : List String
  rows : List (List Cell)
deriving DecidableEq, Repr

/-- One table as returned by `pdfplumber`'s `extract_table`: the first row is
the header, the remaining rows are the data.  `extract_table` always returns
rows of equal length (it pads short rows), and `pd.DataFrame(t[1:],
columns=t[0])` would raise on ragged input, so rectangularity is part of the
type. -/
structure RawTable where
  header : List String
  body   : List (List Cell)
  rect   : ∀ r ∈ body, r.length = header.length

/-! ### Decimal rendering of a natural number (Python's `str(i)`) -/

/-- The character of one decimal digit. -/
def decDigit (n : Nat) : Char := Char.ofNat (48 + n)

/-- Fuel-based digit accumulation, so that the definition is structurally
recursive and reduces in the kernel. -/
def decCharsAux : Nat → Nat → List Char
  | 0, _ => []
  | fuel + 1, n =>
    if n < 10 then [decDigit n]
    else decCharsAux fuel (n / 10) ++ [decDigit (n % 10)]

/-- The decimal digits of `n`, most significant first. -/
def decChars (n : Nat) : List Char := decCharsAux (n + 1) n

/-- Python's `str(i)` for a natural number. -/
def decStr (n : Nat) : String := ⟨decChars n⟩

/-- The name Python's `f"{dup}_{i}"` builds for the `i`-th duplicate. -/
def mkDupName (d : String) (i : Nat) : String := d ++ "_" ++ decStr i

/-! ### `make_unique_columns` (source lines 28-41) -/

/-- One pass of the inner loop of `make_unique_columns` for the duplicated
name `d`: walking the current column series, the occurrence counter `k`
counts the occurrences of `d` already passed; the first occurrence (`k = 0`)
is left intact, the later ones become `f"{d}_{k}"`. -/
def renameDupAux (d : String) : List String → Nat → List String
  | [], _ => []
  | c :: cs, k =>
    if c = d then
      (if k = 0 then c else mkDupName d k) :: renameDupAux d cs (k + 1)
    else
      c :: renameDupAux d cs k

/-- `cols[cols.duplicated()]`: the elements that have an earlier equal
element, in positional order (`seen` accumulates the elements already
passed). -/
def dupOccurrences : List String → List String → List String
  | [], _ => []
  | c :: cs, seen =>
    if seen.contains c then c :: dupOccurrences cs (c :: seen)
    else dupOccurrences cs (c :: seen)

/-- pandas `.unique()`: keep the first occurrence of each value. -/
def pdUnique : List String → List String → List String
  | [], _ => []
  | c :: cs, seen =>
    if seen.contains c then pdUnique cs seen
    else c :: pdUnique cs (c :: seen)

/-- `cols[cols.duplicated()].unique()`: the list of duplicated names the
outer loop of `make_unique_columns` iterates over, in order of each name's
second occurrence. -/
def dupsList (cols : List String) : List String :=
  pdUnique (dupOccurrences cols []) []

/-- The new column names `make_unique_columns` computes: the outer loop
mutates the column series in place, one duplicated name after the other. -/
def makeUniqueNames (cols : List String) : List String :=
  (dupsList cols).foldl (fun cs d => renameDupAux d cs 0) cols

/-- `make_unique_columns` (source lines 28-41): only the column names change,
the rows are untouched. -/
def make_unique_columns (df : DF) : DF :=
  ⟨makeUniqueNames df.cols, df.rows⟩

/-! ### Column selection and the per-page clean-up -/

/-- `df.loc[:, mask]` for a boolean mask computed from the column names:
keep the columns (and the cells under them) whose name satisfies `p`. -/
def keepCols (df : DF) (p : String → Bool) : DF :=
  ⟨df.cols.filter p,
   df.rows.map (fun r => ((df.cols.zip r).filter (fun x => p x.1)).map (·.2))⟩

/-- `df.loc[:, df.columns != '']` (source lines 58 and 67). -/
def dropEmptyCols (df : DF) : DF := keepCols df (fun c => c != "")

/-- `if 'Nombre' in df.columns: df = df.drop(columns=['Nombre'])`
(source lines 68-69); `drop` removes every column with that label. -/
def dropNombre (df : DF) : DF :=
  if df.cols.contains "Nombre" then keepCols df (fun c => c != "Nombre") else df

/-- `if 'Nº' in df.columns: df = df.drop(columns=['Nº'])`
(source lines 70-71). -/
def dropNo (df : DF) : DF :=
  if df.cols.contains "Nº" then keepCols df (fun c => c != "Nº") else df

/-- `pd.DataFrame(tabla[1:], columns=tabla[0])`. -/
def toDF (t : RawTable) : DF := ⟨t.header, t.body⟩

/-- The left-page pipeline (source lines 56-59): build the DataFrame, drop
empty-named columns, deduplicate the column names. -/
def cleanLeft (t : RawTable) : DF :=
  make_unique_columns (dropEmptyCols (toDF t))

/-- The right-page pipeline (source lines 65-72): additionally drop the
hard-coded labels `"Nombre"` and `"Nº"`. -/
def cleanRight (t : RawTable) : DF :=
  make_unique_columns (dropNo (dropNombre (dropEmptyCols (toDF t))))

/-! ### Horizontal concatenation of a page pair -/

/-- Row `k` of a DataFrame, padded: when the side has no row `k`, pandas
fills its `w` columns with missing values. -/
def padGet (rows : List (List Cell)) (w k : Nat) : List Cell :=
  rows.getD k (List.replicate w none)

/-- `pd.concat([l, r], axis=1)` on DataFrames carrying their default range
indexes: the outer join of the two range indexes is `0 .. max - 1`, so the
rows are paired positionally and the shorter side is padded with missing
cells. -/
def hconcat (l r : DF) : DF :=
  ⟨l.cols ++ r.cols,
   (List.range (max l.rows.length r.rows.length)).map
     (fun k => padGet l.rows l.cols.length k ++ padGet r.rows r.cols.length k)⟩

/-! ### Vertical concatenation of the pair blocks -/

/-- First-seen union of column names (`pd.concat`'s column alignment with
`sort=False`). -/
def unionCols : List String → List String → List String
  | acc, [] => acc
  | acc, c :: cs =>
    if acc.contains c then unionCols acc cs else unionCols (acc ++ [c]) cs

/-- The cell a row holds under the column named `c` (missing when the block
has no such column). -/
def cellAt (cols : List String) (row : List Cell) (c : String) : Cell :=
  match (cols.zip row).lookup c with
  | some v => v
  | none => none

/-- `pd.concat(dataframes, ignore_index=True)` (source line 84): `none` for
the empty list (pandas raises `ValueError`); when every block has the same
columns pandas stacks the rows as they are; otherwise it aligns the blocks on
the first-seen union of the column names, which raises (`none`) when a block
has duplicate column labels. -/
def vconcat : List DF → Option DF
  | [] => none
  | d :: ds =>
    if ∀ x ∈ ds, x.cols = d.cols then
      some ⟨d.cols, (d :: ds).foldr (fun x r => x.rows ++ r) []⟩
    else if ∀ x ∈ d :: ds, x.cols.Nodup then
      let u := (d :: ds).foldl (fun acc x => unionCols acc x.cols) []
      some ⟨u, (d :: ds).foldr
        (fun x r => x.rows.map (fun row => u.map (cellAt x.cols row)) ++ r) []⟩
    else none

/-! ### Final clean-up -/

/-- `replace('', pd.NA)` on one cell. -/
def replaceCell (c : Cell) : Cell := if c = some "" then none else c

/-- `resultado_final.replace('', pd.NA)` (source line 85). -/
def replaceEmpty (df : DF) : DF :=
  ⟨df.cols, df.rows.map (fun r => r.map replaceCell)⟩

/-- Is every cell of the row missing? -/
def rowAllNA (r : List Cell) : Bool := r.all (fun c => c == none)

/-- `.dropna(how='all')` (source line 85): keep the rows with at least one
non-missing cell. -/
def dropAllNA (df : DF) : DF :=
  ⟨df.cols, df.rows.filter (fun r => !rowAllNA r)⟩

/-! ### The page-pair loop (source lines 52-81) -/

/-- The assignment `df_left = ...` guarded by `if tabla_left:`: when the page
yields no table the Python variable `df_left` keeps the value of the previous
iteration (`none` when it was never assigned). -/
def updateLeft (left : Option RawTable) (dfl : Option DF) : Option DF :=
  match left with
  | some t => some (cleanLeft t)
  | none => dfl

/-- `for i in range(0, len(pdf.pages), 2)` with the body of source lines
53-81: two pages are consumed per iteration, `dfl` is the current value of
the Python variable `df_left` (carried across iterations), `acc` the blocks
appended so far (in reverse).  Using `df_left` before it was ever assigned
raises `NameError`, modelled by `none`. -/
def pairLoop : List (Option RawTable) → Option DF → List DF → Option (List DF)
  | [], _, acc => some acc.reverse
  | [left], dfl, acc =>
    match updateLeft left dfl with
    | none => none
    | some d => some ((d :: acc).reverse)
  | left :: right :: rest, dfl, acc =>
    match updateLeft left dfl with
    | none => none
    | some d =>
      let comb := match right with
        | some tr => hconcat d (cleanRight tr)
        | none => d
      pairLoop rest (some d) (comb :: acc)

/-- Source lines 51-85: the Result Table `procesar_pdf` assembles from the
extraction results of the pages (`none` = the page yielded no table), or
`none` when an internal error is raised (NameError from the unassigned
`df_left`, or `pd.concat` of no blocks). -/
def procesar_table (pages : List (Option RawTable)) : Option DF :=
  (pairLoop pages none []).bind fun dfs =>
    (vconcat dfs).map fun v => dropAllNA (replaceEmpty v)

/-- `procesar_pdf` (source lines 43-95).  `opened` is the outcome of opening
and extracting the PDF (`none`: `pdfplumber.open` raised), `writeOk` whether
`to_excel` succeeds.  The result is the returned boolean together with the
content of the destination file (`none`: nothing was written); the write is
modelled as atomic: either `to_excel` writes the fully assembled table or it
raises and leaves nothing. -/
def procesar_pdf (opened : Option (List (Option RawTable))) (writeOk : Bool) :
    Bool × Option DF :=
  match opened with
  | none => (false, none)
  | some pages =>
    match procesar_table pages with
    | none => (false, none)
    | some df => if writeOk then (true, some df) else (false, none)

/-! ### The spec's description of Column Deduplication (for refinement) -/

/-- Modelled from the spec's words (section 4.1): rename, simultaneously for
every name, the occurrence with `j ≥ 1` earlier equal occurrences to
`name_j`, the names in `ds` being the ones treated as duplicated.  `seen`
holds the names already passed. -/
def specRename (ds : List String) : List String → List String → List String
  | _, [] => []
  | seen, c :: cs =>
    (if c ∈ ds ∧ seen.count c ≠ 0 then mkDupName c (seen.count c) else c)
      :: specRename ds (c :: seen) cs

/-- No name that the renaming scheme can generate (`d ++ "_" ++ str j` for a
duplicated name `d` and `1 ≤ j <` its multiplicity) occurs in the input: the
hypothesis under which `make_unique_columns` really produces unique names. -/
def FreshNames (cols : List String) : Prop :=
  ∀ d ∈ dupsList cols, ∀ j ∈ List.range (cols.count d), j ≠ 0 →
    mkDupName d j ∉ cols

instance (cols : List String) : Decidable (FreshNames cols) := by
  unfold FreshNames; infer_instance

/-! ## Lemmas about the decimal printer -/

theorem decCharsAux_congr :
    ∀ n f₁ f₂, n < f₁ → n < f₂ → decCharsAux f₁ n = decCharsAux f₂ n := by
  intro n
  induction n using Nat.strong_induction_on with
  | _ n ih =>
    intro f₁ f₂ h₁ h₂
    match f₁, h₁ with
    | g₁ + 1, _ =>
      match f₂, h₂ with
      | g₂ + 1, _ =>
        simp only [decCharsAux]
        split
        · rfl
        · rename_i h10
          have hlt : n / 10 < n := Nat.div_lt_self (by omega) (by omega)
          rw [ih (n / 10) hlt g₁ g₂ (by omega) (by omega)]

/-- The recurrence `decChars` satisfies once the fuel is unfolded. -/
theorem decChars_eq (n : Nat) :
    decChars n =
      if n < 10 then [decDigit n]
      else decChars (n / 10) ++ [decDigit (n % 10)] := by
  by_cases h : n < 10
  · simp [decChars, decCharsAux, h]
  · have h1 : decCharsAux (n + 1) n = decCharsAux n (n / 10) ++ [decDigit (n % 10)] := by
      simp [decCharsAux, h]
    have h2 : decCharsAux n (n / 10) = decCharsAux (n / 10 + 1) (n / 10) :=
      decCharsAux_congr (n / 10) n (n / 10 + 1) (by omega) (by omega)
    rw [if_neg h]
    show decCharsAux (n + 1) n = decCharsAux (n / 10 + 1) (n / 10) ++ [decDigit (n % 10)]
    rw [h1, h2]

theorem decDigit_inj {a b : Nat} (ha : a < 10) (hb : b < 10)
    (h : decDigit a = decDigit b) : a = b := by
  interval_cases a <;> interval_cases b <;> revert h <;> decide

theorem decDigit_ne_underscore {a : Nat} (ha : a < 10) : decDigit a ≠ '_' := by
  interval_cases a <;> decide

theorem decChars_ne_nil (n : Nat) : decChars n ≠ [] := by
  rw [decChars_eq]; split <;> simp

theorem decChars_no_underscore (n : Nat) : ∀ c ∈ decChars n, c ≠ '_' := by
  induction n using Nat.strong_induction_on with
  | _ n ih =>
    rw [decChars_eq]
    split
    · rename_i h
      intro c hc
      simp only [List.mem_singleton] at hc
      subst hc
      exact decDigit_ne_underscore h
    · rename_i h
      intro c hc
      rcases List.mem_append.1 hc with h1 | h2
      · exact ih (n / 10) (Nat.div_lt_self (by omega) (by omega)) c h1
      · simp only [List.mem_singleton] at h2
        subst h2
        exact decDigit_ne_underscore (Nat.mod_lt n (by omega))

theorem decChars_inj : ∀ m n, decChars m = decChars n → m = n := by
  intro m
  induction m using Nat.strong_induction_on with
  | _ m ih =>
    intro n h
    rw [decChars_eq m, decChars_eq n] at h
    split at h <;> split at h
    · rename_i hm hn
      simp only [List.cons.injEq, and_true] at h
      exact decDigit_inj hm hn h
    · exfalso
      have hlen := congrArg List.length h
      simp only [List.length_singleton, List.length_append] at hlen
      have h0 : (decChars (n / 10)).length = 0 := by omega
      exact decChars_ne_nil (n / 10) (List.length_eq_zero.1 h0)
    · exfalso
      have hlen := congrArg List.length h
      simp only [List.length_singleton, List.length_append] at hlen
      have h0 : (decChars (m / 10)).length = 0 := by omega
      exact decChars_ne_nil (m / 10) (List.length_eq_zero.1 h0)
    · rename_i hm hn
      obtain ⟨h1, h2⟩ := List.append_inj' h (by simp)
      simp only [List.cons.injEq, and_true] at h2
      have hdiv : m / 10 = n / 10 :=
        ih (m / 10) (Nat.div_lt_self (by omega) (by omega)) _ h1
      have hmod : m % 10 = n % 10 :=
        decDigit_inj (Nat.mod_lt m (by omega)) (Nat.mod_lt n (by omega)) h2
      omega

theorem mkDupName_data (d : String) (j : Nat) :
    (mkDupName d j).data = d.data ++ '_' :: decChars j := by
  simp [mkDupName, decStr, String.data_append]

theorem underscore_mem_mkDupName (d : String) (j : Nat) :
    '_' ∈ (mkDupName d j).data := by
  rw [mkDupName_data]; simp

/-- A string whose characters avoid the underscore is no generated name. -/
theorem mkDupName_ne_of_no_underscore {s : String} (hs : '_' ∉ s.data)
    (d : String) (j : Nat) : mkDupName d j ≠ s := by
  intro h
  exact hs (h ▸ underscore_mem_mkDupName d j)

/-- Splitting a character list at an underscore none of the leading parts
contain is unambiguous. -/
theorem underscore_split :
    ∀ (a₁ : List Char) (a₂ b₁ b₂ : List Char), '_' ∉ a₁ → '_' ∉ a₂ →
      a₁ ++ '_' :: b₁ = a₂ ++ '_' :: b₂ → a₁ = a₂ ∧ b₁ = b₂ := by
  intro a₁
  induction a₁ with
  | nil =>
    intro a₂ b₁ b₂ _ h₂ h
    cases a₂ with
    | nil =>
      simp only [List.nil_append, List.cons.injEq, true_and] at h
      exact ⟨rfl, h⟩
    | cons y ys =>
      simp only [List.nil_append, List.cons_append, List.cons.injEq] at h
      exfalso
      apply h₂
      rw [h.1]
      exact List.mem_cons_self y ys
  | cons x xs ih =>
    intro a₂ b₁ b₂ h₁ h₂ h
    cases a₂ with
    | nil =>
      simp only [List.cons_append, List.nil_append, List.cons.injEq] at h
      exfalso
      apply h₁
      rw [← h.1]
      exact List.mem_cons_self x xs
    | cons y ys =>
      simp only [List.cons_append, List.cons.injEq] at h
      obtain ⟨hxy, htail⟩ := h
      obtain ⟨he, hb⟩ := ih ys b₁ b₂ (fun hm => h₁ (List.mem_cons_of_mem _ hm))
        (fun hm => h₂ (List.mem_cons_of_mem _ hm)) htail
      exact ⟨by rw [hxy, he], hb⟩

/-! ## Basic facts about the renaming pass and the duplicate list -/

theorem renameDupAux_length (d : String) :
    ∀ (cs : List String) (k : Nat), (renameDupAux d cs k).length = cs.length := by
  intro cs
  induction cs with
  | nil => intro k; rfl
  | cons c cs ih =>
    intro k
    by_cases h : c = d <;> simp [renameDupAux, h, ih]

theorem makeUniqueNames_length (cols : List String) :
    (makeUniqueNames cols).length = cols.length := by
  have key : ∀ (ds init : List String),
      (List.foldl (fun cs d => renameDupAux d cs 0) init ds).length = init.length := by
    intro ds
    induction ds with
    | nil => intro init; rfl
    | cons d ds ih => intro init; rw [List.foldl_cons, ih, renameDupAux_length]
  exact key _ _

theorem mem_renameDupAux {x d : String} :
    ∀ {cs : List String} {k : Nat}, x ∈ renameDupAux d cs k →
      x ∈ cs ∨ ∃ j, x = mkDupName d j := by
  intro cs
  induction cs with
  | nil => intro k h; simp [renameDupAux] at h
  | cons c cs ih =>
    intro k h
    by_cases hc : c = d
    · rw [renameDupAux, if_pos hc] at h
      rcases List.mem_cons.1 h with h1 | h1
      · by_cases hk : k = 0
        · rw [if_pos hk] at h1; exact Or.inl (h1 ▸ List.mem_cons_self c cs)
        · rw [if_neg hk] at h1; exact Or.inr ⟨k, h1⟩
      · rcases ih h1 with h2 | h2
        · exact Or.inl (List.mem_cons_of_mem c h2)
        · exact Or.inr h2
    · rw [renameDupAux, if_neg hc] at h
      rcases List.mem_cons.1 h with h1 | h1
      · exact Or.inl (h1 ▸ List.mem_cons_self c cs)
      · rcases ih h1 with h2 | h2
        · exact Or.inl (List.mem_cons_of_mem c h2)
        · exact Or.inr h2

/-- Every name `make_unique_columns` outputs is an input name or a generated
suffixed name. -/
theorem mem_makeUniqueNames {x : String} {cols : List String}
    (h : x ∈ makeUniqueNames cols) : x ∈ cols ∨ ∃ d j, x = mkDupName d j := by
  have key : ∀ (ds init : List String),
      x ∈ List.foldl (fun cs d => renameDupAux d cs 0) init ds →
      x ∈ init ∨ ∃ d j, x = mkDupName d j := by
    intro ds
    induction ds with
    | nil => intro init h0; exact Or.inl h0
    | cons d ds ih =>
      intro init h0
      rw [List.foldl_cons] at h0
      rcases ih _ h0 with h1 | h1
      · rcases mem_renameDupAux h1 with h2 | h2
        · exact Or.inl h2
        · exact Or.inr ⟨d, h2⟩
      · exact Or.inr h1
  exact key _ _ h

theorem dupOccurrences_subset {x : String} :
    ∀ (cs seen : List String), x ∈ dupOccurrences cs seen → x ∈ cs := by
  intro cs
  induction cs with
  | nil => intro seen h; simp [dupOccurrences] at h
  | cons c cs ih =>
    intro seen h
    rw [dupOccurrences] at h
    split at h
    · rcases List.mem_cons.1 h with h1 | h1
      · exact h1 ▸ List.mem_cons_self c cs
      · exact List.mem_cons_of_mem c (ih _ h1)
    · exact List.mem_cons_of_mem c (ih _ h)

theorem dupOccurrences_count {x : String} :
    ∀ (cs seen : List String), x ∈ dupOccurrences cs seen →
      2 ≤ seen.count x + cs.count x := by
  intro cs
  induction cs with
  | nil => intro seen h; simp [dupOccurrences] at h
  | cons c cs ih =>
    intro seen h
    have hsum : (c :: seen).count x + cs.count x = seen.count x + (c :: cs).count x := by
      by_cases hc : x = c
      · subst hc; rw [List.count_cons_self, List.count_cons_self]; omega
      · rw [List.count_cons_of_ne hc, List.count_cons_of_ne hc]
    rw [dupOccurrences] at h
    split at h
    · rename_i hseen
      rcases List.mem_cons.1 h with h1 | h1
      · subst h1
        have hmem : x ∈ seen := by simpa using hseen
        have h2 : 1 ≤ seen.count x := List.count_pos_iff.2 hmem
        have h3 : 1 ≤ (x :: cs).count x := by rw [List.count_cons_self]; omega
        omega
      · have := ih _ h1; omega
    · have := ih _ h; omega

theorem dupOccurrences_complete {x : String} :
    ∀ (cs seen : List String), x ∈ cs → 2 ≤ seen.count x + cs.count x →
      x ∈ dupOccurrences cs seen := by
  intro cs
  induction cs with
  | nil => intro seen h _; simp at h
  | cons c cs ih =>
    intro seen hmem hcnt
    have hsum : (c :: seen).count x + cs.count x = seen.count x + (c :: cs).count x := by
      by_cases hc : x = c
      · subst hc; rw [List.count_cons_self, List.count_cons_self]; omega
      · rw [List.count_cons_of_ne hc, List.count_cons_of_ne hc]
    rw [dupOccurrences]
    split
    · by_cases hc : x = c
      · exact hc ▸ List.mem_cons_self c _
      · rcases List.mem_cons.1 hmem with h1 | h1
        · exact absurd h1 hc
        · exact List.mem_cons_of_mem c (ih _ h1 (by omega))
    · rename_i hseen
      by_cases hc : x = c
      · subst hc
        have h0 : seen.count x = 0 := by
          rw [List.count_eq_zero]
          intro hx
          exact hseen (by simpa using hx)
        have h1 : 2 ≤ seen.count x + (x :: cs).count x := hcnt
        rw [List.count_cons_self] at h1
        have h2 : 1 ≤ cs.count x := by omega
        refine ih _ (List.count_pos_iff.1 (by omega)) ?_
        rw [List.count_cons_self]
        omega
      · rcases List.mem_cons.1 hmem with h1 | h1
        · exact absurd h1 hc
        · exact ih _ h1 (by omega)

theorem pdUnique_subset {x : String} :
    ∀ (l seen : List String), x ∈ pdUnique l seen → x ∈ l := by
  intro l
  induction l with
  | nil => intro seen h; simp [pdUnique] at h
  | cons c cs ih =>
    intro seen h
    rw [pdUnique] at h
    split at h
    · exact List.mem_cons_of_mem c (ih _ h)
    · rcases List.mem_cons.1 h with h1 | h1
      · exact h1 ▸ List.mem_cons_self c cs
      · exact List.mem_cons_of_mem c (ih _ h1)

theorem pdUnique_complete {x : String} :
    ∀ (l seen : List String), x ∈ l → x ∉ seen → x ∈ pdUnique l seen := by
  intro l
  induction l with
  | nil => intro seen h _; simp at h
  | cons c cs ih =>
    intro seen hmem hseen
    rw [pdUnique]
    split
    · rename_i hc
      rcases List.mem_cons.1 hmem with h1 | h1
      · exact absurd (by simpa using hc) (h1 ▸ hseen)
      · exact ih _ h1 hseen
    · by_cases hxc : x = c
      · exact hxc ▸ List.mem_cons_self c _
      · rcases List.mem_cons.1 hmem with h1 | h1
        · exact absurd h1 hxc
        · refine List.mem_cons_of_mem c (ih _ h1 ?_)
          intro hx
          rcases List.mem_cons.1 hx with h2 | h2
          · exact hxc h2
          · exact hseen h2

theorem pdUnique_avoids {x : String} :
    ∀ (l seen : List String), x ∈ pdUnique l seen → x ∉ seen := by
  intro l
  induction l with
  | nil => intro seen h; simp [pdUnique] at h
  | cons c cs ih =>
    intro seen h
    rw [pdUnique] at h
    split at h
    · exact ih _ h
    · rename_i hc
      rcases List.mem_cons.1 h with h1 | h1
      · subst h1
        intro hx
        exact hc (by simpa using hx)
      · intro hx
        exact ih _ h1 (List.mem_cons_of_mem c hx)

theorem pdUnique_nodup : ∀ (l seen : List String), (pdUnique l seen).Nodup := by
  intro l
  induction l with
  | nil => intro seen; simp [pdUnique]
  | cons c cs ih =>
    intro seen
    rw [pdUnique]
    split
    · exact ih _
    · refine List.nodup_cons.2 ⟨?_, ih _⟩
      intro hc
      exact pdUnique_avoids cs (c :: seen) hc (List.mem_cons_self c seen)

/-- A name is in the duplicate list iff it occurs at least twice. -/
theorem mem_dupsList {cols : List String} {x : String} :
    x ∈ dupsList cols ↔ 2 ≤ cols.count x := by
  constructor
  · intro h
    have hx := pdUnique_subset _ _ h
    have := dupOccurrences_count cols [] hx
    simpa using this
  · intro h
    have hxmem : x ∈ cols := List.count_pos_iff.1 (by omega)
    have h1 : x ∈ dupOccurrences cols [] :=
      dupOccurrences_complete cols [] hxmem (by simpa using h)
    exact pdUnique_complete _ [] h1 (List.not_mem_nil x)

theorem dupsList_nodup (cols : List String) : (dupsList cols).Nodup :=
  pdUnique_nodup _ _

theorem dupsList_subset_cols {cols : List String} {x : String}
    (h : x ∈ dupsList cols) : x ∈ cols :=
  dupOccurrences_subset _ _ (pdUnique_subset _ _ h)

/-! ## `specRename` basics -/

theorem specRename_nil_ds : ∀ (seen cs : List String), specRename [] seen cs = cs := by
  intro seen cs
  induction cs generalizing seen with
  | nil => rfl
  | cons c cs ih => simp [specRename, ih]

theorem specRename_congr {ds ds' : List String} (h : ∀ x, x ∈ ds ↔ x ∈ ds') :
    ∀ (cs seen : List String), specRename ds seen cs = specRename ds' seen cs := by
  intro cs
  induction cs with
  | nil => intro seen; rfl
  | cons c cs ih =>
    intro seen
    simp only [specRename]
    rw [ih (c :: seen)]
    congr 1
    by_cases hc : c ∈ ds ∧ seen.count c ≠ 0
    · rw [if_pos hc, if_pos ⟨(h c).1 hc.1, hc.2⟩]
    · rw [if_neg hc, if_neg (fun hc' => hc ⟨(h c).2 hc'.1, hc'.2⟩)]

theorem specRename_length (ds : List String) :
    ∀ (cs seen : List String), (specRename ds seen cs).length = cs.length := by
  intro cs
  induction cs with
  | nil => intro seen; rfl
  | cons c cs ih => intro seen; simp [specRename, ih]

/-- One pass of the inner loop on the already-partially-renamed series acts
exactly as adding `d` to the simultaneously-renamed set, provided no name the
earlier passes generated collides with `d`. -/
theorem renameDup_specRename (d : String) :
    ∀ (cs seen ds : List String), d ∉ ds →
      (∀ d' ∈ ds, ∀ j, j ≠ 0 → j ≤ seen.count d' + cs.count d' - 1 →
        mkDupName d' j ≠ d) →
      renameDupAux d (specRename ds seen cs) (seen.count d)
        = specRename (d :: ds) seen cs := by
  intro cs
  induction cs with
  | nil => intro seen ds _ _; simp [specRename, renameDupAux]
  | cons c cs ih =>
    intro seen ds hd hfresh
    have hfresh' : ∀ d' ∈ ds, ∀ j, j ≠ 0 →
        j ≤ (c :: seen).count d' + cs.count d' - 1 → mkDupName d' j ≠ d := by
      intro d' hd' j hj hjb
      refine hfresh d' hd' j hj ?_
      by_cases hdc : d' = c
      · subst hdc
        rw [List.count_cons_self] at hjb
        rw [List.count_cons_self]
        omega
      · rw [List.count_cons_of_ne hdc] at hjb
        rw [List.count_cons_of_ne hdc]
        omega
    simp only [specRename]
    by_cases hcd : c = d
    · subst hcd
      have hcds : c ∉ ds := hd
      rw [if_neg (fun hx => hcds hx.1)]
      rw [renameDupAux, if_pos rfl]
      have htail := ih (c :: seen) ds hd hfresh'
      rw [List.count_cons_self] at htail
      rw [htail]
      congr 1
      by_cases h0 : seen.count c = 0
      · rw [if_pos h0, if_neg (fun hx => hx.2 h0)]
      · rw [if_neg h0, if_pos ⟨List.mem_cons_self c ds, h0⟩]
    · have htail := ih (c :: seen) ds hd hfresh'
      rw [List.count_cons_of_ne (fun h => hcd h.symm)] at htail
      by_cases hm : c ∈ ds ∧ seen.count c ≠ 0
      · rw [if_pos hm]
        have hne : mkDupName c (seen.count c) ≠ d := by
          refine hfresh c hm.1 (seen.count c) hm.2 ?_
          rw [List.count_cons_self]
          omega
        rw [renameDupAux, if_neg hne, htail]
        rw [if_pos ⟨List.mem_cons_of_mem d hm.1, hm.2⟩]
      · rw [if_neg hm]
        have hneg : ¬ (c ∈ d :: ds ∧ seen.count c ≠ 0) := by
          intro hx
          rcases List.mem_cons.1 hx.1 with h1 | h1
          · exact hcd h1
          · exact hm ⟨h1, hx.2⟩
        rw [if_neg hneg, renameDupAux, if_neg hcd, htail]

theorem mkDupName_inj {d d' : String} {j j' : Nat}
    (h : mkDupName d j = mkDupName d' j') : d = d' ∧ j = j' := by
  have hd : d.data ++ '_' :: decChars j = d'.data ++ '_' :: decChars j' := by
    rw [← mkDupName_data, ← mkDupName_data, h]
  have hrev : (decChars j).reverse ++ '_' :: d.data.reverse
      = (decChars j').reverse ++ '_' :: d'.data.reverse := by
    have := congrArg List.reverse hd
    simpa [List.reverse_append] using this
  have hnu : '_' ∉ (decChars j).reverse := by
    intro hm
    exact decChars_no_underscore j _ (List.mem_reverse.1 hm) rfl
  have hnu' : '_' ∉ (decChars j').reverse := by
    intro hm
    exact decChars_no_underscore j' _ (List.mem_reverse.1 hm) rfl
  obtain ⟨h1, h2⟩ := underscore_split _ _ _ _ hnu hnu' hrev
  refine ⟨?_, decChars_inj j j' (List.reverse_inj.1 h1)⟩
  have hdd : d.data = d'.data := List.reverse_inj.1 h2
  cases d; cases d'
  exact congrArg String.mk (by simpa using hdd)

/-! ## The outer loop computes the simultaneous renaming -/

theorem foldl_renameDup_spec (cols : List String) :
    ∀ (ds acc : List String), ds.Nodup → (∀ x ∈ ds, x ∉ acc) →
      (∀ x ∈ ds, x ∈ cols) →
      (∀ d' ∈ acc ++ ds, ∀ j, j ≠ 0 → j ≤ cols.count d' - 1 →
        mkDupName d' j ∉ cols) →
      List.foldl (fun cs d => renameDupAux d cs 0) (specRename acc [] cols) ds
        = specRename (ds.reverse ++ acc) [] cols := by
  intro ds
  induction ds with
  | nil => intro acc _ _ _ _; simp
  | cons d ds ih =>
    intro acc hnd hdisj hmem hfresh
    have hstep : renameDupAux d (specRename acc [] cols) 0
        = specRename (d :: acc) [] cols := by
      have hda : d ∉ acc := hdisj d (List.mem_cons_self d ds)
      have hf : ∀ d' ∈ acc, ∀ j, j ≠ 0 →
          j ≤ ([] : List String).count d' + cols.count d' - 1 →
          mkDupName d' j ≠ d := by
        intro d' hd' j hj hjb heq
        have hnotin : mkDupName d' j ∉ cols :=
          hfresh d' (List.mem_append_left (d :: ds) hd') j hj (by simpa using hjb)
        exact hnotin (heq ▸ hmem d (List.mem_cons_self d ds))
      have h := renameDup_specRename d cols [] acc hda hf
      simpa using h
    rw [List.foldl_cons, hstep]
    have hnd' : ds.Nodup := (List.nodup_cons.1 hnd).2
    have hdnotds : d ∉ ds := (List.nodup_cons.1 hnd).1
    have hdisj' : ∀ x ∈ ds, x ∉ d :: acc := by
      intro x hx hmem'
      rcases List.mem_cons.1 hmem' with h1 | h1
      · exact hdnotds (h1 ▸ hx)
      · exact hdisj x (List.mem_cons_of_mem d hx) h1
    have hmem' : ∀ x ∈ ds, x ∈ cols := fun x hx =>
      hmem x (List.mem_cons_of_mem d hx)
    have hfresh' : ∀ d' ∈ (d :: acc) ++ ds, ∀ j, j ≠ 0 →
        j ≤ cols.count d' - 1 → mkDupName d' j ∉ cols := by
      intro d' hd' j hj hjb
      refine hfresh d' ?_ j hj hjb
      rcases List.mem_append.1 hd' with h1 | h1
      · rcases List.mem_cons.1 h1 with h2 | h2
        · exact List.mem_append_right acc (h2 ▸ List.mem_cons_self d ds)
        · exact List.mem_append_left _ h2
      · exact List.mem_append_right acc (List.mem_cons_of_mem d h1)
    rw [ih (d :: acc) hnd' hdisj' hmem' hfresh']
    rw [List.reverse_cons, List.append_assoc, List.singleton_append]

/-- Under the freshness hypothesis, `make_unique_columns` computes exactly
the simultaneous renaming the spec describes. -/
theorem makeUniqueNames_eq_spec {cols : List String} (hfresh : FreshNames cols) :
    makeUniqueNames cols = specRename (dupsList cols) [] cols := by
  have hf : ∀ d' ∈ ([] : List String) ++ dupsList cols, ∀ j, j ≠ 0 →
      j ≤ cols.count d' - 1 → mkDupName d' j ∉ cols := by
    intro d' hd' j hj hjb
    have hd'' : d' ∈ dupsList cols := by simpa using hd'
    have h2 : 2 ≤ cols.count d' := mem_dupsList.1 hd''
    exact hfresh d' hd'' j (List.mem_range.2 (by omega)) hj
  have h := foldl_renameDup_spec cols (dupsList cols) [] (dupsList_nodup cols)
    (fun x _ hx => List.not_mem_nil x hx)
    (fun x hx => dupsList_subset_cols hx) hf
  rw [specRename_nil_ds] at h
  unfold makeUniqueNames
  rw [h]
  exact specRename_congr (by simp) cols []

/-! ## Positional characterization and uniqueness of the renamed columns -/

theorem specRename_getD (ds : List String) :
    ∀ (cs seen : List String) (p : Nat), p < cs.length →
      (specRename ds seen cs).getD p "" =
        (if cs.getD p "" ∈ ds ∧
            seen.count (cs.getD p "") + (cs.take p).count (cs.getD p "") ≠ 0
         then mkDupName (cs.getD p "")
            (seen.count (cs.getD p "") + (cs.take p).count (cs.getD p ""))
         else cs.getD p "") := by
  intro cs
  induction cs with
  | nil => intro seen p h; simp at h
  | cons c cs ih =>
    intro seen p hp
    cases p with
    | zero =>
      simp only [specRename, List.getD_cons_zero, List.take_zero,
        List.count_nil, Nat.add_zero]
    | succ p =>
      have hp' : p < cs.length := by simpa using hp
      simp only [specRename, List.getD_cons_succ, List.take_succ_cons]
      rw [ih (c :: seen) p hp']
      have hcnt : (c :: seen).count (cs.getD p "") + (cs.take p).count (cs.getD p "")
          = seen.count (cs.getD p "") + (c :: cs.take p).count (cs.getD p "") := by
        by_cases hcc : cs.getD p "" = c
        · rw [hcc, List.count_cons_self, List.count_cons_self]
          omega
        · rw [List.count_cons_of_ne hcc, List.count_cons_of_ne hcc]
      rw [hcnt]

theorem getD_mem {l : List String} {p : Nat} (hp : p < l.length) :
    l.getD p "" ∈ l := by
  rw [List.getD_eq_getElem l "" hp]
  exact List.getElem_mem hp

theorem count_take_succ_getD {l : List String} {p : Nat} (hp : p < l.length) :
    (l.take (p + 1)).count (l.getD p "") = (l.take p).count (l.getD p "") + 1 := by
  rw [List.take_succ]
  have h1 : l[p]? = some (l.getD p "") := by
    rw [List.getD_eq_getElem l "" hp]
    exact List.getElem?_eq_getElem hp
  rw [h1]
  simp [List.count_append]

theorem count_take_mono (c : String) {m n : Nat} (h : m ≤ n) (l : List String) :
    (l.take m).count c ≤ (l.take n).count c := by
  have heq : (l.take n).take m = l.take m := by
    rw [List.take_take, Nat.min_eq_left h]
  have hs : List.Sublist (l.take m) (l.take n) :=
    heq ▸ List.take_sublist m (l.take n)
  exact hs.count_le c

theorem count_take_lt_count {l : List String} {p : Nat} (hp : p < l.length) :
    (l.take p).count (l.getD p "") < l.count (l.getD p "") := by
  have h1 := count_take_succ_getD hp
  have h2 : (l.take (p + 1)).count (l.getD p "") ≤ l.count (l.getD p "") :=
    (List.take_sublist (p + 1) l).count_le (l.getD p "")
  omega

theorem count_take_strict {l : List String} {p q : Nat} (hpq : p < q)
    (hq : q < l.length) :
    (l.take p).count (l.getD p "") < (l.take q).count (l.getD p "") := by
  have hp : p < l.length := lt_trans hpq hq
  have h1 := count_take_succ_getD hp
  have h2 := count_take_mono (l.getD p "") (show p + 1 ≤ q by omega) l
  omega

/-- Under the freshness hypothesis, the name `make_unique_columns` puts at
position `p` only depends on the original name there and the number of its
earlier occurrences. -/
theorem makeUniqueNames_getD {cols : List String} (hfresh : FreshNames cols)
    {p : Nat} (hp : p < cols.length) :
    (makeUniqueNames cols).getD p "" =
      if (cols.take p).count (cols.getD p "") = 0 then cols.getD p ""
      else mkDupName (cols.getD p "") ((cols.take p).count (cols.getD p "")) := by
  rw [makeUniqueNames_eq_spec hfresh]
  rw [specRename_getD (dupsList cols) cols [] p hp]
  simp only [List.count_nil, Nat.zero_add]
  by_cases hj : (cols.take p).count (cols.getD p "") = 0
  · rw [if_neg (fun hx => hx.2 hj), if_pos hj]
  · have hmem2 : 2 ≤ cols.count (cols.getD p "") := by
      have := count_take_lt_count hp
      omega
    rw [if_pos ⟨mem_dupsList.2 hmem2, hj⟩, if_neg hj]

theorem freshNames_not_mem {cols : List String} (hf : FreshNames cols)
    {c : String} {j : Nat} (h2 : 2 ≤ cols.count c) (hj : j ≠ 0)
    (hjlt : j < cols.count c) : mkDupName c j ∉ cols :=
  hf c (mem_dupsList.2 h2) j (List.mem_range.2 hjlt) hj

theorem makeUniqueNames_getD_ne {cols : List String} (hfresh : FreshNames cols)
    {p q : Nat} (hpq : p < q) (hq : q < cols.length) :
    (makeUniqueNames cols).getD p "" ≠ (makeUniqueNames cols).getD q "" := by
  have hp : p < cols.length := lt_trans hpq hq
  rw [makeUniqueNames_getD hfresh hp, makeUniqueNames_getD hfresh hq]
  by_cases hjp : (cols.take p).count (cols.getD p "") = 0 <;>
    by_cases hjq : (cols.take q).count (cols.getD q "") = 0
  · rw [if_pos hjp, if_pos hjq]
    intro heq
    have hs := count_take_strict hpq hq
    rw [heq] at hs
    omega
  · rw [if_pos hjp, if_neg hjq]
    intro heq
    have h2 : 2 ≤ cols.count (cols.getD q "") := by
      have := count_take_lt_count hq
      omega
    have hnot : mkDupName (cols.getD q "")
        ((cols.take q).count (cols.getD q "")) ∉ cols :=
      freshNames_not_mem hfresh h2 hjq (count_take_lt_count hq)
    exact hnot (heq ▸ getD_mem hp)
  · rw [if_neg hjp, if_pos hjq]
    intro heq
    have h2 : 2 ≤ cols.count (cols.getD p "") := by
      have := count_take_lt_count hp
      omega
    have hnot : mkDupName (cols.getD p "")
        ((cols.take p).count (cols.getD p "")) ∉ cols :=
      freshNames_not_mem hfresh h2 hjp (count_take_lt_count hp)
    apply hnot
    rw [heq]
    exact getD_mem hq
  · rw [if_neg hjp, if_neg hjq]
    intro heq
    obtain ⟨hc, hj⟩ := mkDupName_inj heq
    have hs := count_take_strict hpq hq
    rw [hc] at hs hj
    omega

/-- Under the freshness hypothesis the renamed columns really are pairwise
distinct. -/
theorem makeUniqueNames_nodup {cols : List String} (hfresh : FreshNames cols) :
    (makeUniqueNames cols).Nodup := by
  rw [List.nodup_iff_injective_get]
  intro a b hab
  have hlen := makeUniqueNames_length cols
  rcases a with ⟨p, hp⟩
  rcases b with ⟨q, hq⟩
  have hp' : p < cols.length := by omega
  have hq' : q < cols.length := by omega
  have hgd : (makeUniqueNames cols).getD p "" = (makeUniqueNames cols).getD q "" := by
    rw [List.getD_eq_getElem _ "" hp, List.getD_eq_getElem _ "" hq]
    simpa using hab
  rcases Nat.lt_trichotomy p q with h | h | h
  · exact absurd hgd (makeUniqueNames_getD_ne hfresh h hq')
  · exact Fin.ext h
  · exact absurd hgd.symm (makeUniqueNames_getD_ne hfresh h hp')

/-! ## Facts about the per-page column clean-up -/

theorem keepCols_cols (df : DF) (p : String → Bool) :
    (keepCols df p).cols = df.cols.filter p := rfl

theorem mkDupName_ne_empty (d : String) (j : Nat) : mkDupName d j ≠ "" :=
  mkDupName_ne_of_no_underscore (by simp) d j

theorem empty_not_mem_makeUniqueNames {cols : List String} (h : "" ∉ cols) :
    "" ∉ makeUniqueNames cols := by
  intro hx
  rcases mem_makeUniqueNames hx with h1 | ⟨d, j, h1⟩
  · exact h h1
  · exact mkDupName_ne_empty d j h1.symm

theorem empty_not_mem_dropEmptyCols (df : DF) : "" ∉ (dropEmptyCols df).cols := by
  rw [dropEmptyCols, keepCols_cols]
  intro hx
  have := (List.mem_filter.1 hx).2
  simp at this

theorem dropNombre_cols_subset {df : DF} {x : String}
    (hx : x ∈ (dropNombre df).cols) : x ∈ df.cols := by
  unfold dropNombre at hx
  split at hx
  · rw [keepCols_cols] at hx
    exact (List.mem_filter.1 hx).1
  · exact hx

theorem dropNo_cols_subset {df : DF} {x : String}
    (hx : x ∈ (dropNo df).cols) : x ∈ df.cols := by
  unfold dropNo at hx
  split at hx
  · rw [keepCols_cols] at hx
    exact (List.mem_filter.1 hx).1
  · exact hx

theorem nombre_not_mem_dropNombre (df : DF) : "Nombre" ∉ (dropNombre df).cols := by
  unfold dropNombre
  split
  · rw [keepCols_cols]
    intro hx
    have := (List.mem_filter.1 hx).2
    simp at this
  · rename_i h
    intro hx
    exact h (by simpa using hx)

theorem no_not_mem_dropNo (df : DF) : "Nº" ∉ (dropNo df).cols := by
  unfold dropNo
  split
  · rw [keepCols_cols]
    intro hx
    have := (List.mem_filter.1 hx).2
    simp at this
  · rename_i h
    intro hx
    exact h (by simpa using hx)

theorem nombre_not_mem_cleanRight (t : RawTable) :
    "Nombre" ∉ (cleanRight t).cols := by
  intro hx
  rcases mem_makeUniqueNames hx with h1 | ⟨d, j, h1⟩
  · exact nombre_not_mem_dropNombre _ (dropNo_cols_subset h1)
  · exact mkDupName_ne_of_no_underscore (by decide) d j h1.symm

theorem no_not_mem_cleanRight (t : RawTable) : "Nº" ∉ (cleanRight t).cols := by
  intro hx
  rcases mem_makeUniqueNames hx with h1 | ⟨d, j, h1⟩
  · exact no_not_mem_dropNo _ h1
  · exact mkDupName_ne_of_no_underscore (by decide) d j h1.symm

theorem empty_not_mem_cleanLeft (t : RawTable) : "" ∉ (cleanLeft t).cols :=
  empty_not_mem_makeUniqueNames (empty_not_mem_dropEmptyCols _)

theorem empty_not_mem_cleanRight (t : RawTable) : "" ∉ (cleanRight t).cols := by
  refine empty_not_mem_makeUniqueNames ?_
  intro hx
  exact empty_not_mem_dropEmptyCols _ (dropNombre_cols_subset (dropNo_cols_subset hx))

theorem dropNombre_cols_nil {df : DF} (h : df.cols = []) :
    (dropNombre df).cols = [] := by
  unfold dropNombre
  split
  · rw [keepCols_cols, h]
    rfl
  · exact h

theorem dropNo_cols_nil {df : DF} (h : df.cols = []) : (dropNo df).cols = [] := by
  unfold dropNo
  split
  · rw [keepCols_cols, h]
    rfl
  · exact h

theorem cleanLeft_rows_length (t : RawTable) :
    (cleanLeft t).rows.length = t.body.length := by
  simp [cleanLeft, make_unique_columns, dropEmptyCols, keepCols, toDF]

/-! ## Facts about the merge and final clean-up -/

theorem vconcat_singleton (b : DF) : vconcat [b] = some b := by
  simp [vconcat]

theorem vconcat_two_same (b : DF) :
    vconcat [b, b] = some ⟨b.cols, b.rows ++ b.rows⟩ := by
  simp [vconcat]

theorem procesar_table_pair (t1 t2 : RawTable) :
    procesar_table [some t1, some t2]
      = some (dropAllNA (replaceEmpty (hconcat (cleanLeft t1) (cleanRight t2)))) := by
  unfold procesar_table
  rw [show pairLoop [some t1, some t2] none []
      = some [hconcat (cleanLeft t1) (cleanRight t2)] from rfl]
  rw [Option.some_bind, vconcat_singleton, Option.map_some']

theorem replaceCell_ne_some_empty (c : Cell) : replaceCell c ≠ some "" := by
  unfold replaceCell
  split
  · simp
  · rename_i h
    exact h

theorem hconcat_rows_length (l r : DF) :
    (hconcat l r).rows.length = max l.rows.length r.rows.length := by
  simp [hconcat]

theorem hconcat_row (l r : DF) {k : Nat}
    (hk : k < max l.rows.length r.rows.length) :
    (hconcat l r).rows.getD k [] =
      padGet l.rows l.cols.length k ++ padGet r.rows r.cols.length k := by
  unfold hconcat
  rw [List.getD_eq_getElem _ _ (by simpa using hk)]
  simp

/-! ## The claims -/

/-- Claim C1: for the concrete two-page PDF in which page 1's table has
header `["Nº","Valor"]` with rows `[["1","10"],["2","20"]]` and page 2's
table has header `["Nombre","Extra"]` with rows `[["A","x"],["B","y"]]`,
`procesar_pdf` succeeds and writes the Result Table with header
`["Nº","Valor","Extra"]` and rows `[["1","10","x"],["2","20","y"]]`
(page 2's `"Nombre"` column dropped). -/
theorem claim_C1_concrete_two_page :
    procesar_pdf
      (some [some ⟨["Nº", "Valor"],
                   [[some "1", some "10"], [some "2", some "20"]], by decide⟩,
             some ⟨["Nombre", "Extra"],
                   [[some "A", some "x"], [some "B", some "y"]], by decide⟩])
      true
      = (true, some ⟨["Nº", "Valor", "Extra"],
                     [[some "1", some "10", some "x"],
                      [some "2", some "20", some "y"]]⟩) := by
  decide

/-- Claim C2 (amended): for every column-name sequence in which no name the
renaming scheme can generate already occurs (`FreshNames`), the output of
`make_unique_columns` has the same length, is pairwise unique, keeps each
first occurrence's original name, preserves the column order (each position
holds its original name or a suffixed variant of it), and leaves the rows
untouched. -/
theorem claim_C2_dedup_props (df : DF) (hfresh : FreshNames df.cols) :
    (make_unique_columns df).cols.length = df.cols.length ∧
    (make_unique_columns df).cols.Nodup ∧
    (∀ p, p < df.cols.length → (df.cols.take p).count (df.cols.getD p "") = 0 →
      (make_unique_columns df).cols.getD p "" = df.cols.getD p "") ∧
    (∀ p, p < df.cols.length →
      (make_unique_columns df).cols.getD p "" = df.cols.getD p "" ∨
      ∃ j, j ≠ 0 ∧
        (make_unique_columns df).cols.getD p "" = mkDupName (df.cols.getD p "") j) ∧
    (make_unique_columns df).rows = df.rows := by
  refine ⟨makeUniqueNames_length df.cols, makeUniqueNames_nodup hfresh, ?_, ?_, rfl⟩
  · intro p hp h0
    show (makeUniqueNames df.cols).getD p "" = df.cols.getD p ""
    rw [makeUniqueNames_getD hfresh hp, if_pos h0]
  · intro p hp
    by_cases h0 : (df.cols.take p).count (df.cols.getD p "") = 0
    · refine Or.inl ?_
      show (makeUniqueNames df.cols).getD p "" = df.cols.getD p ""
      rw [makeUniqueNames_getD hfresh hp, if_pos h0]
    · refine Or.inr ⟨(df.cols.take p).count (df.cols.getD p ""), h0, ?_⟩
      show (makeUniqueNames df.cols).getD p "" = _
      rw [makeUniqueNames_getD hfresh hp, if_neg h0]

/-- Witness for claim C2 at the concrete input `["a","b","a"]`. -/
theorem claim_C2_witness :
    FreshNames (["a", "b", "a"] : List String) ∧
    (make_unique_columns ⟨["a", "b", "a"], []⟩).cols.Nodup ∧
    (make_unique_columns ⟨["a", "b", "a"], []⟩).cols.length = 3 := by
  refine ⟨by decide, ?_, ?_⟩
  · exact (claim_C2_dedup_props ⟨["a", "b", "a"], []⟩ (by decide)).2.1
  · exact (claim_C2_dedup_props ⟨["a", "b", "a"], []⟩ (by decide)).1

/-- Claim C2 counterexample: on `["a","a_1","a"]` the code produces
`["a","a_1","a_1"]`, which is not pairwise unique, so the claim as stated
(for every sequence) is false. -/
theorem claim_C2_cex :
    makeUniqueNames ["a", "a_1", "a"] = ["a", "a_1", "a_1"] ∧
    ¬ (make_unique_columns ⟨["a", "a_1", "a"], []⟩).cols.Nodup := by
  decide

/-- Claim C3 (amended): under the same freshness proviso, the name at
position `p` is unchanged when it has no earlier equal occurrence, and is
`name_j` when it has `j ≥ 1` earlier equal occurrences (so the `k`-th
occurrence, `k ≥ 2`, becomes `name_{k-1}`). -/
theorem claim_C3_rename_pattern (df : DF) (hfresh : FreshNames df.cols)
    (p : Nat) (hp : p < df.cols.length) :
    (make_unique_columns df).cols.getD p "" =
      if (df.cols.take p).count (df.cols.getD p "") = 0 then df.cols.getD p ""
      else mkDupName (df.cols.getD p "")
        ((df.cols.take p).count (df.cols.getD p "")) :=
  makeUniqueNames_getD hfresh hp

/-- Witness for claim C3 at the concrete input `["a","b","a"]`, position 2:
the second occurrence of `"a"` becomes `"a_1"`. -/
theorem claim_C3_witness :
    FreshNames (["a", "b", "a"] : List String) ∧
    (make_unique_columns ⟨["a", "b", "a"], []⟩).cols.getD 2 "" = "a_1" := by
  refine ⟨by decide, ?_⟩
  rw [claim_C3_rename_pattern ⟨["a", "b", "a"], []⟩ (by decide) 2 (by decide)]
  decide

/-- Claim C3 counterexample: in `["a","a","a_1","a_1"]` the name `"a_1"` is
repeated twice and its first occurrence is at position 2, yet the code
renames that first occurrence to `"a_1_1"` (the pass for `"a"` creates a new
`"a_1"` at position 1 first), so the claim as stated is false. -/
theorem claim_C3_cex :
    (["a", "a", "a_1", "a_1"] : List String).count "a_1" = 2 ∧
    ((["a", "a", "a_1", "a_1"] : List String).take 2).count "a_1" = 0 ∧
    (["a", "a", "a_1", "a_1"] : List String).getD 2 "" = "a_1" ∧
    (make_unique_columns ⟨["a", "a", "a_1", "a_1"], []⟩).cols
      = ["a", "a_1", "a_1_1", "a_1_2"] ∧
    (make_unique_columns ⟨["a", "a", "a_1", "a_1"], []⟩).cols.getD 2 "" ≠ "a_1" := by
  decide

/-- Claim C4: empty-named columns are removed from the left and the right
table (independently, before deduplication, which never reintroduces an
empty name); the row count is untouched; a table all of whose columns are
empty-named reduces to zero columns on both sides. -/
theorem claim_C4_empty_name_removal (t : RawTable) :
    "" ∉ (cleanLeft t).cols ∧ "" ∉ (cleanRight t).cols ∧
    (cleanLeft t).rows.length = t.body.length ∧
    ((∀ c ∈ t.header, c = "") →
      (cleanLeft t).cols = [] ∧ (cleanRight t).cols = []) := by
  refine ⟨empty_not_mem_cleanLeft t, empty_not_mem_cleanRight t,
    cleanLeft_rows_length t, ?_⟩
  intro hall
  have hfil : (dropEmptyCols (toDF t)).cols = [] := by
    rw [dropEmptyCols, keepCols_cols]
    rw [List.filter_eq_nil_iff]
    intro a ha
    simp [hall a ha]
  constructor
  · show makeUniqueNames (dropEmptyCols (toDF t)).cols = []
    rw [hfil]
    rfl
  · show makeUniqueNames (dropNo (dropNombre (dropEmptyCols (toDF t)))).cols = []
    rw [dropNo_cols_nil (dropNombre_cols_nil hfil)]
    rfl

/-- Claim C5 counterexample: when the left page also has a `"Nombre"`
column, the Result Table keeps it (only the right table is cleaned), so the
claim "the Result Table has no Nombre column" is false as stated. -/
theorem claim_C5_cex :
    "Nombre" ∈ (["Nombre", "Extra"] : List String) ∧
    procesar_table
      [some ⟨["Nombre"], [[some "L"]], by decide⟩,
       some ⟨["Nombre", "Extra"], [[some "A", some "x"]], by decide⟩]
      = some ⟨["Nombre", "Extra"], [[some "L", some "x"]]⟩ := by
  decide

/-- Claim C5 (amended): columns named `"Nombre"` or `"Nº"` are dropped from
the right table before merging; if in addition the cleaned left table has no
`"Nombre"` column, the Result Table has no `"Nombre"` column. -/
theorem claim_C5_nombre_dropped (t1 t2 : RawTable) (df : DF)
    (h1 : "Nombre" ∉ (cleanLeft t1).cols)
    (h2 : procesar_table [some t1, some t2] = some df) :
    "Nombre" ∉ (cleanRight t2).cols ∧ "Nº" ∉ (cleanRight t2).cols ∧
    "Nombre" ∉ df.cols := by
  rw [procesar_table_pair t1 t2] at h2
  have hdf : df = dropAllNA (replaceEmpty (hconcat (cleanLeft t1) (cleanRight t2))) :=
    (Option.some.inj h2).symm
  refine ⟨nombre_not_mem_cleanRight t2, no_not_mem_cleanRight t2, ?_⟩
  rw [hdf]
  show "Nombre" ∉ (cleanLeft t1).cols ++ (cleanRight t2).cols
  intro hx
  rcases List.mem_append.1 hx with hx | hx
  · exact h1 hx
  · exact nombre_not_mem_cleanRight t2 hx

/-- Witness for claim C5 at a concrete two-page input. -/
theorem claim_C5_witness :
    "Nombre" ∉ (cleanRight ⟨["Nombre", "B"], [[some "n", some "b"]], by decide⟩).cols ∧
    "Nombre" ∉ (⟨["A", "B"], [[some "a", some "b"]]⟩ : DF).cols := by
  have h := claim_C5_nombre_dropped
    ⟨["A"], [[some "a"]], by decide⟩
    ⟨["Nombre", "B"], [[some "n", some "b"]], by decide⟩
    ⟨["A", "B"], [[some "a", some "b"]]⟩
    (by decide) (by decide)
  exact ⟨h.1, h.2.2⟩

/-- Claim C6: the merged block of a pair with both tables is the horizontal
concatenation aligned by row position; its row count is the maximum of the
two; row `k` pairs row `k` of the left with row `k` of the right, the
missing side padded with missing cells. -/
theorem claim_C6_positional_merge (l r : DF) :
    (hconcat l r).cols = l.cols ++ r.cols ∧
    (hconcat l r).rows.length = max l.rows.length r.rows.length ∧
    (∀ k, k < max l.rows.length r.rows.length →
      (hconcat l r).rows.getD k [] =
        l.rows.getD k (List.replicate l.cols.length none)
          ++ r.rows.getD k (List.replicate r.cols.length none)) ∧
    (∀ tl tr : RawTable,
      pairLoop [some tl, some tr] none []
        = some [hconcat (cleanLeft tl) (cleanRight tr)]) := by
  refine ⟨rfl, hconcat_rows_length l r, ?_, fun tl tr => rfl⟩
  intro k hk
  exact hconcat_row l r hk

/-- Claim C7: a successful run's Result Table is the vertical concatenation
of the pair blocks, with every empty-string cell replaced by the missing
marker and every all-missing row removed, the remaining rows in order. -/
theorem claim_C7_final_assembly (pages : List (Option RawTable)) (df : DF)
    (h : procesar_table pages = some df) :
    ∃ dfs v, pairLoop pages none [] = some dfs ∧ vconcat dfs = some v ∧
      df.cols = v.cols ∧
      df.rows = (v.rows.map (fun r => r.map replaceCell)).filter
        (fun r => !rowAllNA r) ∧
      (∀ r ∈ df.rows, ∃ c ∈ r, c ≠ none) ∧
      (∀ r ∈ df.rows, ∀ c ∈ r, c ≠ some "") := by
  unfold procesar_table at h
  rcases hpl : pairLoop pages none [] with _ | dfs
  · rw [hpl] at h
    simp at h
  · rw [hpl] at h
    rcases hv : vconcat dfs with _ | v
    · rw [Option.some_bind, hv] at h
      simp at h
    · rw [Option.some_bind, hv, Option.map_some'] at h
      have hdf : df = dropAllNA (replaceEmpty v) := (Option.some.inj h).symm
      subst hdf
      refine ⟨dfs, v, rfl, hv, rfl, rfl, ?_, ?_⟩
      · intro row hr
        have hr' : row ∈ ((replaceEmpty v).rows.filter (fun x => !rowAllNA x)) := hr
        have h2 : rowAllNA row = false := by
          have := (List.mem_filter.1 hr').2
          simpa using this
        have h3 : ¬ (∀ c ∈ row, c = none) := by
          intro hall
          have hall' : rowAllNA row = true := by
            unfold rowAllNA
            rw [List.all_eq_true]
            intro c hc
            simpa using hall c hc
          simp [hall'] at h2
        push_neg at h3
        obtain ⟨c, hc1, hc2⟩ := h3
        exact ⟨c, hc1, hc2⟩
      · intro row hr c hc
        have hr' : row ∈ ((replaceEmpty v).rows.filter (fun x => !rowAllNA x)) := hr
        have hrm := (List.mem_filter.1 hr').1
        have hrm' : row ∈ v.rows.map (fun x => x.map replaceCell) := hrm
        rcases List.mem_map.1 hrm' with ⟨r0, _, hr0⟩
        subst hr0
        rcases List.mem_map.1 hc with ⟨c0, _, hc0⟩
        subst hc0
        exact replaceCell_ne_some_empty c0

/-- Witness for claim C7 at a concrete one-page input with an all-empty
row: that row is absent from the result. -/
theorem claim_C7_witness :
    ∃ dfs v,
      pairLoop [some ⟨["A", "B"],
        [[some "", some ""], [some "v", some ""]], by decide⟩] none []
        = some dfs ∧
      vconcat dfs = some v ∧
      (⟨["A", "B"], [[some "v", none]]⟩ : DF).cols = v.cols := by
  obtain ⟨dfs, v, h1, h2, h3, _⟩ := claim_C7_final_assembly
    [some ⟨["A", "B"], [[some "", some ""], [some "v", some ""]], by decide⟩]
    ⟨["A", "B"], [[some "v", none]]⟩ (by decide)
  exact ⟨dfs, v, h1, h2, h3⟩

/-- Claim C8: `procesar_pdf` never propagates an error: it returns `True`
exactly when the spreadsheet was written, returns `False` with no file
written on any internal failure, and any written file is the fully
assembled Result Table of the opened pages. -/
theorem claim_C8_error_handling (o : Option (List (Option RawTable))) (w : Bool) :
    ((procesar_pdf o w).1 = true ↔ ∃ df, (procesar_pdf o w).2 = some df) ∧
    ((procesar_pdf o w).1 = false → (procesar_pdf o w).2 = none) ∧
    (∀ df, (procesar_pdf o w).2 = some df →
      ∃ pages, o = some pages ∧ procesar_table pages = some df) := by
  rcases o with _ | pages
  · simp [procesar_pdf]
  · rcases h : procesar_table pages with _ | df0
    · simp [procesar_pdf, h]
    · cases w <;> simp [procesar_pdf, h]

/-- Claim C9: when an even page yields no table, the Python variable
`df_left` keeps its previous value, so the block of that pair reuses the
most recent earlier left table; in particular a 4-page PDF whose pages 2-4
yield nothing repeats page 1's cleaned table twice in the Result Table. -/
theorem claim_C9_left_table_carry_over :
    (∀ (d : DF) (acc : List DF) (rest : List (Option RawTable)),
      pairLoop (none :: none :: rest) (some d) acc
        = pairLoop rest (some d) (d :: acc)) ∧
    (∀ t : RawTable,
      procesar_table [some t, none, none, none] =
        some ⟨(cleanLeft t).cols,
          (((cleanLeft t).rows.map (fun r => r.map replaceCell)).filter
            (fun r => !rowAllNA r))
          ++ (((cleanLeft t).rows.map (fun r => r.map replaceCell)).filter
            (fun r => !rowAllNA r))⟩) := by
  refine ⟨fun d acc rest => rfl, fun t => ?_⟩
  unfold procesar_table
  rw [show pairLoop [some t, none, none, none] none []
      = some [cleanLeft t, cleanLeft t] from rfl]
  rw [Option.some_bind, vconcat_two_same, Option.map_some']
  simp [dropAllNA, replaceEmpty, List.filter_append]

/-- Claim C10: a PDF whose first page yields no table makes `procesar_pdf`
fail (`df_left` is used before assignment, the `NameError` is caught), and
so does a zero-page PDF (`pd.concat` of no blocks raises): both return
`False` and write nothing. -/
theorem claim_C10_first_page_failure :
    (∀ (rest : List (Option RawTable)) (w : Bool),
      procesar_pdf (some (none :: rest)) w = (false, none)) ∧
    (∀ w : Bool, procesar_pdf (some []) w = (false, none)) := by
  constructor
  · intro rest w
    have h : procesar_table (none :: rest) = none := by
      unfold procesar_table
      have hpl : pairLoop (none :: rest) none [] = none := by
        cases rest with
        | nil => rfl
        | cons b bs => rfl
      rw [hpl]
      rfl
    simp [procesar_pdf, h]
  · intro w
    simp [procesar_pdf, procesar_table, pairLoop, vconcat]
